import Mathlib

/-!
Verification of `bountycatch.py`.

A shallow embedding in Lean 4 of the core of `bountycatch.py`, a tool that
manages named sets of domain names backed by a Redis set store, together with
theorems settling the claims of the specification against the code.

Conventions of the embedding:
* Python strings are Lean `String`s (or `List Char` where induction is easier);
  Python `bytes` values are `List Nat` of byte values.
* The Redis store is an association list from keys to `Finset String`
  (a Redis key exists iff it is present in the list; Redis set commands on an
  absent key see an empty set, and `SADD` creates the key).
* Fallible operations return `Except` / `Option`; an uncaught Python exception
  is an `Except.error`.
* Logging calls are modelled only where a claim mentions them (as a list of
  emitted warnings); otherwise they are dropped, since they do not affect the
  values the claims speak about.
-/

/-! ## Python string helpers -/

/-- The characters Python's `str.strip()` removes (the ASCII whitespace
subset; the source never feeds other Unicode whitespace to `strip`). -/
def pyIsSpace (c : Char) : Bool :=
  c = ' ' || c = '\t' || c = '\n' || c = '\x0d' || c = '\x0b' || c = '\x0c'

/-- Python `str.strip()`: remove leading and trailing whitespace. -/
def pyStrip (s : String) : String :=
  ⟨((s.data.dropWhile pyIsSpace).reverse.dropWhile pyIsSpace).reverse⟩

/-- Python `str.lower()` on the ASCII range (the formats compared against,
`'text'` and `'json'`, are ASCII). -/
def pyLower (s : String) : String :=
  ⟨s.data.map Char.toLower⟩

/-! ## DomainValidator

Source (`bountycatch.py`, class `DomainValidator`):

    DOMAIN_PATTERN = re.compile(
        r'^(?:[a-zA-Z0-9](?:[a-zA-Z0-9-]{0,61}[a-zA-Z0-9])?\.)'
        r'+[a-zA-Z0-9](?:[a-zA-Z0-9-]{0,61}[a-zA-Z0-9])?$'
    )

    @classmethod
    def is_valid_domain(cls, domain: str) -> bool:
        if not domain or len(domain) > 253:
            return False
        return bool(cls.DOMAIN_PATTERN.match(domain))
-/

/-- The character class `[a-zA-Z0-9]` of `DOMAIN_PATTERN`. -/
def isAlnumAscii (c : Char) : Bool :=
  ('a' ≤ c && c ≤ 'z') || ('A' ≤ c && c ≤ 'Z') || ('0' ≤ c && c ≤ '9')

/-- The character class `[a-zA-Z0-9-]` of `DOMAIN_PATTERN`. -/
def isLabelChar (c : Char) : Bool :=
  isAlnumAscii c || c = '-'

/-- Whether a dot-free segment is matched in full by the label sub-pattern
`[a-zA-Z0-9](?:[a-zA-Z0-9-]{0,61}[a-zA-Z0-9])?` of `DOMAIN_PATTERN`:
either a single `[a-zA-Z0-9]` character (optional group absent), or a first
`[a-zA-Z0-9]` character, then at most 61 characters of `[a-zA-Z0-9-]`, then a
final `[a-zA-Z0-9]` character (optional group present, its greedy counted
repetition backtracking to leave one character for the closing class). -/
def labelMatches : List Char → Bool
  | [] => false
  | [c] => isAlnumAscii c
  | c :: rest =>
    isAlnumAscii c && decide (rest.length ≤ 62) &&
      rest.dropLast.all isLabelChar &&
      (match rest.getLast? with
       | some d => isAlnumAscii d
       | none => false)

/-- Split a character list at every `'.'` (the literal `\.` of the pattern);
`splitOnDot s` always returns one more segment than `s` has dots. -/
def splitOnDot : List Char → List (List Char)
  | [] => [[]]
  | c :: cs =>
    if c = '.' then [] :: splitOnDot cs
    else
      match splitOnDot cs with
      | p :: ps => (c :: p) :: ps
      | [] => [[c]]

/-- Re-join segments with `'.'`: left inverse of `splitOnDot`. -/
def joinDot : List (List Char) → List Char
  | [] => []
  | [p] => p
  | p :: ps => p ++ '.' :: joinDot ps

/-- The language of `(?:label\.)+` as written in `DOMAIN_PATTERN`: one or
more groups, each a label followed by a literal dot. -/
inductive PlusLabelDot : List Char → Prop
  | one (l : List Char) (hl : labelMatches l = true) : PlusLabelDot (l ++ ['.'])
  | more (l : List Char) (s : List Char) (hl : labelMatches l = true)
      (hs : PlusLabelDot s) : PlusLabelDot (l ++ '.' :: s)

/-- The language of the whole (unanchored core of) `DOMAIN_PATTERN`:
`(?:label\.)+` followed by a final label. -/
def DomainPatternLang (s : List Char) : Prop :=
  ∃ p q, s = p ++ q ∧ PlusLabelDot p ∧ labelMatches q = true

/-- Executable matcher for the core of `DOMAIN_PATTERN`. Because `'.'` occurs
in the pattern only as the literal separator and in no character class, a
string is in `DomainPatternLang` iff splitting it at dots yields at least two
segments, all matched by the label sub-pattern; `domainPatternCore` decides
that (the equivalence is `domainPatternCore_iff_lang` below). -/
def domainPatternCore (s : List Char) : Bool :=
  let parts := splitOnDot s
  decide (2 ≤ parts.length) && parts.all labelMatches

/-- Python `re` semantics of the trailing `$` under `.match`: the anchored
pattern matches the whole input, or the whole input minus one final
newline (`$` also matches just before a newline at the end of the string). -/
def domainPatternMatch (s : List Char) : Bool :=
  domainPatternCore s ||
    ((match s.getLast? with
      | some c => c = '\n'
      | none => false) && domainPatternCore s.dropLast)

/-- `DomainValidator.is_valid_domain`: reject the empty string and strings
longer than 253 characters, otherwise test `DOMAIN_PATTERN.match`. -/
def is_valid_domain (domain : String) : Bool :=
  if domain.data.isEmpty || decide (253 < domain.data.length) then false
  else domainPatternMatch domain.data

/-! ## The Redis store

The store is modelled as an association list from keys (project names) to
member sets. A key exists iff it has an entry; `SADD` on an absent key
creates the entry. The per-method `try/except redis.RedisError` blocks of
`DataStore` log and re-raise, so they do not change the value semantics
modelled here; store errors are injected explicitly where a claim needs them
(`Project.get_domains`). -/

def Store := List (String × Finset String)

instance : DecidableEq Store := by
  unfold Store
  exact inferInstance

namespace DataStore

/-- The set Redis holds at `key` (`∅` when the key is absent; the first
entry for a key is the authoritative one). -/
def membersOf : Store → String → Finset String
  | [], _ => ∅
  | (k, s) :: rest, key => if k = key then s else membersOf rest key

/-- `DataStore.add_domain` (Redis `SADD project domain`): add the member,
creating the key if needed; return the number of members actually added
(`1` if it was new, `0` if it was already present). -/
def add_domain (st : Store) (project : String) (domain : String) :
    Store × Nat :=
  match st with
  | [] => ([(project, {domain})], 1)
  | (k, s) :: rest =>
    if k = project then
      if domain ∈ s then ((k, s) :: rest, 0)
      else ((k, insert domain s) :: rest, 1)
    else
      let (rest', n) := add_domain rest project domain
      ((k, s) :: rest', n)

/-- `DataStore.project_exists` (Redis `EXISTS project`: whether the key is
present). -/
def project_exists : Store → String → Bool
  | [], _ => false
  | (k, _) :: rest, project => k = project || project_exists rest project

/-- `DataStore.count_domains` (Redis `SCARD project`: `0` on an absent
key). -/
def count_domains (st : Store) (project : String) : Nat :=
  (membersOf st project).card

/-- `DataStore.delete_project` (Redis `DEL project`): remove the key,
returning the number of keys removed (`0` or `1` for this single key). -/
def delete_project (st : Store) (project : String) : Store × Nat :=
  match st with
  | [] => ([], 0)
  | (k, s) :: rest =>
    if k = project then (rest, 1)
    else
      let (rest', n) := delete_project rest project
      ((k, s) :: rest', n)

end DataStore

/-! ## UTF-8 decoding (Python `bytes.decode('utf-8')`, strict mode)

Standard UTF-8: continuation bytes `0x80..0xBF`; two-byte leads `0xC2..0xDF`
(`0xC0`/`0xC1` are overlong); three-byte leads `0xE0..0xEF` with the second
byte restricted after `0xE0` (overlong) and `0xED` (surrogates); four-byte
leads `0xF0..0xF4` with the second byte restricted after `0xF0` (overlong)
and `0xF4` (above `U+10FFFF`). A violation raises `UnicodeDecodeError`,
modelled as `none`. -/

def isCont (b : Nat) : Bool := 0x80 ≤ b && b ≤ 0xBF

def utf8Decode : List Nat → Option (List Char)
  | [] => some []
  | b :: bs =>
    if b ≤ 0x7F then
      (utf8Decode bs).map (Char.ofNat b :: ·)
    else if 0xC2 ≤ b && b ≤ 0xDF then
      match bs with
      | c1 :: bs1 =>
        if isCont c1 then
          (utf8Decode bs1).map (Char.ofNat ((b - 0xC0) * 0x40 + (c1 - 0x80)) :: ·)
        else none
      | [] => none
    else if 0xE0 ≤ b && b ≤ 0xEF then
      match bs with
      | c1 :: c2 :: bs2 =>
        let c1ok :=
          if b = 0xE0 then 0xA0 ≤ c1 && c1 ≤ 0xBF
          else if b = 0xED then 0x80 ≤ c1 && c1 ≤ 0x9F
          else isCont c1
        if c1ok && isCont c2 then
          (utf8Decode bs2).map
            (Char.ofNat ((b - 0xE0) * 0x1000 + (c1 - 0x80) * 0x40 + (c2 - 0x80)) :: ·)
        else none
      | _ => none
    else if 0xF0 ≤ b && b ≤ 0xF4 then
      match bs with
      | c1 :: c2 :: c3 :: bs3 =>
        let c1ok :=
          if b = 0xF0 then 0x90 ≤ c1 && c1 ≤ 0xBF
          else if b = 0xF4 then 0x80 ≤ c1 && c1 ≤ 0x8F
          else isCont c1
        if c1ok && isCont c2 && isCont c3 then
          (utf8Decode bs3).map
            (Char.ofNat ((b - 0xF0) * 0x40000 + (c1 - 0x80) * 0x1000 +
              (c2 - 0x80) * 0x40 + (c3 - 0x80)) :: ·)
        else none
      | _ => none
    else none

/-! ## Project -/

namespace Project

/-- The set comprehension `{domain.decode('utf-8') for domain in raw_domains}`
of `Project.get_domains`, over the raw byte-string members: `none` as soon as
any member fails to decode (the comprehension raises `UnicodeDecodeError`). -/
def decodeMembers : List (List Nat) → Option (List String)
  | [] => some []
  | m :: ms =>
    match utf8Decode m with
    | some cs => (decodeMembers ms).map (String.mk cs :: ·)
    | none => none

/-- `Project.get_domains`. The argument is the outcome of
`self.datastore.get_domains(self.name)` (Redis `SMEMBERS`, a set of byte
strings, given as a list): `Except.error` if that call raised
`redis.RedisError`. The `try/except redis.RedisError` returns `set()` on a
store error; a `UnicodeDecodeError` from `.decode('utf-8')` is not caught and
propagates (`Except.error` in the result). -/
def get_domains (fetch : Except Unit (List (List Nat))) :
    Except Unit (Finset String) :=
  match fetch with
  | .error _ => .ok ∅
  | .ok raw =>
    match decodeMembers raw with
    | some l => .ok l.toFinset
    | none => .error ()

/-- `Project.count_domains`: `None` when `datastore.project_exists` is false
(after logging an error), otherwise `datastore.count_domains` — the store's
cardinality for the project key. -/
def count_domains (st : Store) (name : String) : Option Nat :=
  if DataStore.project_exists st name then
    some (DataStore.count_domains st name)
  else none

/-- `Project.delete`: run `datastore.delete_project` and return `False` when
it removed `0` keys, `True` otherwise; the resulting store is threaded
through. -/
def delete (st : Store) (name : String) : Store × Bool :=
  let (st', deleted_count) := DataStore.delete_project st name
  (st', !(deleted_count = 0))

end Project

namespace Project

/-- The counters accumulated by the loop of `Project.add_domains_from_file`,
together with the final store, the trace of `datastore.add_domain` calls
(`submitted`, in order — instrumentation recording which domains were sent to
the store), and the figures derived after the loop. -/
structure IngestOutcome where
  store : Store
  total_domains : Nat
  new_domains : Nat
  invalid_domains : Nat
  submitted : List String
  deriving DecidableEq

/-- The `for line in file` loop of `Project.add_domains_from_file`: strip the
line; skip it if blank; if `validate` and the stripped line fails
`DomainValidator.is_valid_domain`, count it invalid and skip it; otherwise
call `datastore.add_domain`, accumulate its `0`/`1` return into
`new_domains`, and count the line into `total_domains`. (Store errors are
not modelled: `add_domain` here is total, so the per-line
`except redis.RedisError` skip path is never taken.) -/
def ingestLines (st : Store) (name : String) (validate : Bool) :
    List String → IngestOutcome
  | [] => ⟨st, 0, 0, 0, []⟩
  | line :: rest =>
    let domain := pyStrip line
    if domain = "" then ingestLines st name validate rest
    else if validate && !is_valid_domain domain then
      let r := ingestLines st name validate rest
      { r with invalid_domains := r.invalid_domains + 1 }
    else
      let (st', added) := DataStore.add_domain st name domain
      let r := ingestLines st' name validate rest
      { r with
        new_domains := r.new_domains + added
        total_domains := r.total_domains + 1
        submitted := domain :: r.submitted }

/-- The report `add_domains_from_file` derives and logs after the loop:
`duplicate_domains = total_domains - new_domains` and
`duplicate_percentage = duplicate_domains / total_domains * 100` when
`total_domains > 0`, else `0`. -/
structure IngestReport where
  total_domains : Nat
  new_domains : Nat
  invalid_domains : Nat
  duplicate_domains : Nat
  duplicate_percentage : ℚ
  submitted : List String
  deriving DecidableEq

/-- `Project.add_domains_from_file`. The file is `none` when
`Path(filename).exists()` is false — the function logs an error and returns
with no further action (no report, store untouched) — and otherwise the
file's lines. -/
def add_domains_from_file (st : Store) (name : String)
    (file : Option (List String)) (validate : Bool) :
    Store × Option IngestReport :=
  match file with
  | none => (st, none)
  | some lines =>
    let r := ingestLines st name validate lines
    let duplicate_domains := r.total_domains - r.new_domains
    let duplicate_percentage : ℚ :=
      if 0 < r.total_domains then
        (duplicate_domains : ℚ) / (r.total_domains : ℚ) * 100
      else 0
    (r.store,
      some ⟨r.total_domains, r.new_domains, r.invalid_domains,
        duplicate_domains, duplicate_percentage, r.submitted⟩)

end Project

namespace Project

/-- Python string comparison: lexicographic on code points. -/
def charListLt : List Char → List Char → Bool
  | [], [] => false
  | [], _ :: _ => true
  | _ :: _, [] => false
  | a :: as, b :: bs => a < b || (a = b && charListLt as bs)

/-- The total order `sorted()` uses on strings (`a ≤ b` iff `¬ b < a`). -/
def pyStrLe (a b : String) : Bool :=
  !(charListLt b.data a.data)

def insertSorted (a : String) : List String → List String
  | [] => [a]
  | b :: bs => if pyStrLe a b then a :: b :: bs else b :: insertSorted a bs

/-- Python `sorted()` on a collection of strings (an insertion sort; any
sort agrees with it on the code-point order of `pyStrLe`). -/
def pySorted : List String → List String
  | [] => []
  | a :: as => insertSorted a (pySorted as)

/-- A sequence of Python `f.write(...)` calls on a file just opened with
`open(path, 'w')`. `failAfter = some n` means the `(n+1)`-th write raises
`IOError`; `none` means every write succeeds. Returns the content on disk
(the chunks written before the failure) and whether all writes succeeded. -/
def writeSeq : List String → Option Nat → List String × Bool
  | [], _ => ([], true)
  | _ :: _, some 0 => ([], false)
  | c :: cs, some (n + 1) =>
    let (w, ok) := writeSeq cs (some n)
    (c :: w, ok)
  | c :: cs, none =>
    let (w, ok) := writeSeq cs none
    (c :: w, ok)

/-- Modelled external: the single string `json.dump(export_data, f, indent=2)`
writes for the `export_data` dict of `Project.export_domains` (project name,
domain count, `datetime.now().isoformat()` timestamp — the `now` parameter —
and the sorted domain list). No claim inspects this string's exact shape;
only that it is one write of a serialization of those fields. -/
def renderExportJson (name : String) (now : String)
    (domains : List String) : String :=
  "\x7b\n  \"project\": \"" ++ name ++ "\",\n  \"domain_count\": " ++
    toString domains.length ++ ",\n  \"exported_at\": \"" ++ now ++
    "\",\n  \"domains\": [" ++
    String.intercalate ", " (domains.map (fun d => "\"" ++ d ++ "\"")) ++
    "]\n\x7d"

/-- `Project.export_domains`. `domains` is the value of `self.get_domains()`
(a store error there already yielded `set()`), the member set given as the
list of its elements; `now` stands for
`datetime.now().isoformat()`; `failAfter` is the write-failure oracle of
`writeSeq`. Returns the Python outcome — `.ok b` for `return b`, `.error ()`
for an escaping exception — paired with the file content on disk (`none`: the
file was never opened/created).

Traced from the source: an empty domain set logs a warning and returns
`False` before any file is opened; `format_type.lower() == 'json'` writes the
serialized `export_data` in one `json.dump` call; `format_type.lower() ==
'text'` writes one `f"{domain}\n"` chunk per sorted domain; any other format
logs an error and returns `False` with the file never opened. If a write
raises `IOError`, `open(..., 'w')` has already created (truncated) the file
and the chunks written so far remain on disk; the handler
`except (IOError, json.JSONEncodeError)` then evaluates `json.JSONEncodeError`,
an attribute the `json` module does not have, so an `AttributeError` escapes
instead of `return False`. -/
def export_domains (domains : List String) (name : String) (now : String)
    (format_type : String) (failAfter : Option Nat) :
    Except Unit Bool × Option (List String) :=
  if domains = [] then (.ok false, none)
  else if pyLower format_type = "json" then
    let chunk := renderExportJson name now (pySorted domains)
    let (written, ok) := writeSeq [chunk] failAfter
    if ok then (.ok true, some written) else (.error (), some written)
  else if pyLower format_type = "text" then
    let chunks := (pySorted domains).map (fun d => d ++ "\n")
    let (written, ok) := writeSeq chunks failAfter
    if ok then (.ok true, some written) else (.error (), some written)
  else (.ok false, none)

end Project

/-! ## ConfigManager -/

namespace ConfigManager

/-- Python `int(s)` on a string: strip whitespace, optional sign, then a
nonempty digit run in which single underscores may separate digits (Python 3
accepts `1_000`; a leading, trailing or doubled underscore is a
`ValueError`). Restricted to ASCII digits, which is what the environment
supplies. `none` models `ValueError`. -/
def pyDigits : Nat → List Char → Option Nat
  | acc, [] => some acc
  | acc, c :: cs =>
    if c.isDigit then pyDigits (acc * 10 + (c.toNat - 48)) cs
    else if c = '_' then
      match cs with
      | d :: cs' =>
        if d.isDigit then pyDigits (acc * 10 + (d.toNat - 48)) cs'
        else none
      | [] => none
    else none

def pyIntOfString (s : String) : Option Int :=
  let run : List Char → Option Nat := fun cs =>
    match cs with
    | c :: _ => if c.isDigit then pyDigits 0 cs else none
    | [] => none
  match (pyStrip s).data with
  | '+' :: rest => (run rest).map Int.ofNat
  | '-' :: rest => (run rest).map (fun n => -(n : Int))
  | cs => (run cs).map Int.ofNat

/-- The port slice of `ConfigManager._load_config`, after the config-file
merge. `filePort` is the integer the config file's `redis` section merged
over the default port `6379` (`none`: no config file, or it did not set a
port). `envPort` is `os.getenv('REDIS_PORT')` (`none`: variable unset; note
`some ""` — variable set but empty — fails the `if redis_port:` truthiness
test, so the whole override block is skipped). On `int(redis_port)` raising
`ValueError`, a warning is logged and the merged value is kept. Returns the
effective port and the warnings logged. -/
def loadPort (filePort : Option Int) (envPort : Option String) :
    Int × List String :=
  let merged : Int := match filePort with | some v => v | none => 6379
  match envPort with
  | none => (merged, [])
  | some s =>
    if s = "" then (merged, [])
    else
      match pyIntOfString s with
      | some n => (n, [])
      | none => (merged, ["Invalid REDIS_PORT value: " ++ s])

end ConfigManager

/-! ## Spec-side predicates

These definitions follow the words of the specification's claims (not the
source); the theorems below compare the source-derived functions against
them. -/

/-- Whether a character list contains two consecutive dots. -/
def hasDoubleDot : List Char → Bool
  | c :: d :: rest => (c = '.' && d = '.') || hasDoubleDot (d :: rest)
  | _ => false

/-- The spec's label grammar: 1–63 alphanumeric-or-hyphen characters
beginning and ending with an alphanumeric character. -/
def specLabel (p : List Char) : Bool :=
  decide (1 ≤ p.length) && decide (p.length ≤ 63) && p.all isLabelChar &&
    (match p.head? with
     | some c => isAlnumAscii c
     | none => false) &&
    (match p.getLast? with
     | some c => isAlnumAscii c
     | none => false)

/-- The properties the spec asserts of every accepted string: no underscore,
no label (dot-separated segment) with a leading or trailing hyphen, no
leading dot, no trailing dot, no two consecutive dots, and length at most
253. -/
def specAcceptedProps (s : String) : Bool :=
  s.data.all (fun c => !(c = '_')) &&
    !(s.data.head? = some '.') &&
    !(s.data.getLast? = some '.') &&
    !hasDoubleDot s.data &&
    (splitOnDot s.data).all
      (fun q => !(q.head? = some '-') && !(q.getLast? = some '-')) &&
    decide (s.data.length ≤ 253)

/-! ## Store lemmas -/

namespace DataStore

theorem add_domain_members (st : Store) (k d : String) :
    membersOf (add_domain st k d).1 k = insert d (membersOf st k) := by
  induction st with
  | nil => simp [add_domain, membersOf]
  | cons hd tl ih =>
    obtain ⟨k', s⟩ := hd
    by_cases h : k' = k
    · subst h
      by_cases hm : d ∈ s
      · simp only [add_domain, if_pos rfl, if_pos hm, membersOf, if_pos rfl]
        exact (Finset.insert_eq_self.mpr hm).symm
      · simp [add_domain, hm, membersOf]
    · simp only [add_domain, if_neg h]
      simpa [membersOf, h] using ih

theorem add_domain_snd (st : Store) (k d : String) :
    (add_domain st k d).2 = if d ∈ membersOf st k then 0 else 1 := by
  induction st with
  | nil => simp [add_domain, membersOf]
  | cons hd tl ih =>
    obtain ⟨k', s⟩ := hd
    by_cases h : k' = k
    · subst h
      by_cases hm : d ∈ s
      · simp [add_domain, hm, membersOf]
      · simp [add_domain, hm, membersOf]
    · simp only [add_domain, if_neg h]
      simpa [membersOf, h] using ih

theorem add_domain_snd_le_one (st : Store) (k d : String) :
    (add_domain st k d).2 ≤ 1 := by
  rw [add_domain_snd]
  split <;> simp

theorem delete_project_snd (st : Store) (k : String) :
    (delete_project st k).2 = if project_exists st k then 1 else 0 := by
  induction st with
  | nil => simp [delete_project, project_exists]
  | cons hd tl ih =>
    obtain ⟨k', s⟩ := hd
    by_cases h : k' = k
    · subst h; simp [delete_project, project_exists]
    · simp only [delete_project, if_neg h]
      simpa [project_exists, h] using ih

theorem delete_project_of_not_exists (st : Store) (k : String)
    (h : project_exists st k = false) : delete_project st k = (st, 0) := by
  induction st with
  | nil => simp [delete_project]
  | cons hd tl ih =>
    obtain ⟨k', s⟩ := hd
    simp only [project_exists, Bool.or_eq_false_iff, decide_eq_false_iff_not] at h
    simp [delete_project, h.1, ih h.2]

theorem card_insert_erase (M : Finset String) (d : String) :
    (insert d M).card = (M.erase d).card + 1 := by
  have h1 : insert d M = insert d (M.erase d) := by
    ext x
    simp only [Finset.mem_insert, Finset.mem_erase]
    constructor
    · rintro (rfl | hx)
      · exact Or.inl rfl
      · by_cases hxd : x = d
        · exact Or.inl hxd
        · exact Or.inr ⟨hxd, hx⟩
    · rintro (rfl | ⟨-, hx⟩)
      · exact Or.inl rfl
      · exact Or.inr hx
  rw [h1, Finset.card_insert_of_not_mem (Finset.not_mem_erase d M)]

end DataStore

/-! ## Claim C4 -/

/-- C4: `Project.count_domains` returns the absent-marker `none` — never the
number `0` — when the project does not exist in the store, and returns the
store's set cardinality for the project key when the project exists, so an
existing empty project (`some 0`) and a non-existent one (`none`) are
distinguishable. -/
theorem claim_C4 (st : Store) (name : String) :
    (DataStore.project_exists st name = false →
      Project.count_domains st name = none) ∧
    (DataStore.project_exists st name = true →
      Project.count_domains st name =
        some (DataStore.count_domains st name)) := by
  constructor
  · intro h
    simp [Project.count_domains, h]
  · intro h
    simp [Project.count_domains, h]

/-- Witness for C4: a store holding project `p` with one domain, and the
never-created project `ghost`. -/
theorem claim_C4_witness :
    Project.count_domains [("p", ({"example.com"} : Finset String))] "p" =
      some 1 ∧
    Project.count_domains ([] : Store) "ghost" = none := by
  constructor
  · have h := (claim_C4 [("p", ({"example.com"} : Finset String))] "p").2
      (by decide)
    rw [h]
    rfl
  · exact (claim_C4 [] "ghost").1 (by decide)

/-! ## Claim C7 -/

/-- C7: adding the same domain twice to the same project: the second add
leaves the project's cardinality unchanged and returns `0` (contributing `0`
to the `new` counter), and the domain contributes exactly `1` to the final
cardinality (the final member set is `insert d` of the original and its
cardinality is one more than the original set without `d`). -/
theorem claim_C7 (st : Store) (k d : String) :
    (DataStore.add_domain (DataStore.add_domain st k d).1 k d).2 = 0 ∧
    DataStore.count_domains
        (DataStore.add_domain (DataStore.add_domain st k d).1 k d).1 k =
      DataStore.count_domains (DataStore.add_domain st k d).1 k ∧
    DataStore.membersOf
        (DataStore.add_domain (DataStore.add_domain st k d).1 k d).1 k =
      insert d (DataStore.membersOf st k) ∧
    DataStore.count_domains
        (DataStore.add_domain (DataStore.add_domain st k d).1 k d).1 k =
      ((DataStore.membersOf st k).erase d).card + 1 := by
  have h1 := DataStore.add_domain_members st k d
  have hmem : d ∈ DataStore.membersOf (DataStore.add_domain st k d).1 k := by
    rw [h1]; exact Finset.mem_insert_self d _
  have h2 := DataStore.add_domain_members (DataStore.add_domain st k d).1 k d
  have hins : insert d (DataStore.membersOf (DataStore.add_domain st k d).1 k)
      = DataStore.membersOf (DataStore.add_domain st k d).1 k :=
    Finset.insert_eq_self.mpr hmem
  refine ⟨?_, ?_, ?_, ?_⟩
  · rw [DataStore.add_domain_snd, if_pos hmem]
  · unfold DataStore.count_domains
    rw [h2, hins]
  · rw [h2, hins, h1]
  · unfold DataStore.count_domains
    rw [h2, hins, h1, DataStore.card_insert_erase]

/-! ## Claim C8 -/

/-- C8: `Project.delete` returns `true` iff the store reports at least one
key removed; deleting a never-created project returns `false`, changes no
store state, and leaves the project absent. -/
theorem claim_C8 (st : Store) (name : String) :
    ((Project.delete st name).2 = true ↔
      1 ≤ (DataStore.delete_project st name).2) ∧
    (DataStore.project_exists st name = false →
      (Project.delete st name).2 = false ∧
      (Project.delete st name).1 = st ∧
      DataStore.project_exists (Project.delete st name).1 name = false) := by
  constructor
  · rcases hd : DataStore.delete_project st name with ⟨st', n⟩
    have hsnd := DataStore.delete_project_snd st name
    rw [hd] at hsnd
    simp only [Project.delete, hd]
    simp only at hsnd ⊢
    subst hsnd
    split <;> simp
  · intro h
    unfold Project.delete
    rw [DataStore.delete_project_of_not_exists st name h]
    simpa using h

/-- Witness for C8: deleting the never-created project `ghost` from an empty
store. -/
theorem claim_C8_witness :
    (Project.delete [] "ghost").2 = false ∧
    (Project.delete [] "ghost").1 = [] ∧
    DataStore.project_exists (Project.delete [] "ghost").1 "ghost" = false :=
  (claim_C8 [] "ghost").2 (by decide)

/-! ## Claim C9 -/

/-- C9: when the input file does not exist, `Project.add_domains_from_file`
returns without raising, issues no store operation (the ingestion loop is
never entered), produces no report, and leaves the store unchanged. -/
theorem claim_C9 (st : Store) (name : String) (validate : Bool) :
    Project.add_domains_from_file st name none validate = (st, none) := rfl

/-! ## Claim C10 -/

/-- When every raw member decodes, `Project.decodeMembers` returns exactly
the list of decodings. -/
theorem decodeMembers_of_all_some (raw : List (List Nat))
    (h : ∀ m ∈ raw, (utf8Decode m).isSome = true) :
    Project.decodeMembers raw =
      some (raw.filterMap (fun m => (utf8Decode m).map String.mk)) := by
  induction raw with
  | nil => rfl
  | cons m ms ih =>
    have hm := h m (List.mem_cons_self m ms)
    obtain ⟨cs, hcs⟩ := Option.isSome_iff_exists.mp hm
    have hms := ih (fun x hx => h x (List.mem_cons_of_mem m hx))
    simp [Project.decodeMembers, hcs, hms]

/-- C10: `Project.get_domains` returns the set of UTF-8 decodings of the raw
members whenever every member is valid UTF-8; a store error is caught and
yields the empty set; but a member that is not valid UTF-8 (here the single
byte `0xFF`) makes the decode exception escape uncaught (`Except.error`)
instead of producing a result. -/
theorem claim_C10 :
    (∀ raw : List (List Nat), (∀ m ∈ raw, (utf8Decode m).isSome = true) →
      Project.get_domains (.ok raw) =
        .ok ((raw.filterMap (fun m => (utf8Decode m).map String.mk)).toFinset)) ∧
    (∀ e : Unit, Project.get_domains (.error e) = .ok ∅) ∧
    Project.get_domains (.ok [[0xFF]]) = .error () := by
  refine ⟨?_, fun e => rfl, by rfl⟩
  intro raw h
  simp [Project.get_domains, decodeMembers_of_all_some raw h]

/-- Witness for C10: a store state whose single member is the UTF-8 encoding
of `"hi"`. -/
theorem claim_C10_witness :
    Project.get_domains (.ok [[104, 105]]) =
      .ok (([[104, 105]].filterMap
        (fun m => (utf8Decode m).map String.mk)).toFinset) :=
  claim_C10.1 [[104, 105]] (by decide)

/-! ## Claim C6 (corrected) -/

/-- Counterexample to C6 as stated: with a config file whose `redis` section
set `port` to `1234` and `REDIS_PORT` set to the empty string — a value that
is not a valid integer — the claim demands a logged warning and the default
port in the effective configuration; the code logs nothing (the truthiness
test `if redis_port:` skips the whole override block for an empty string) and
the effective port is the file's `1234`, not the default `6379`. -/
theorem claim_C6_counterexample :
    ConfigManager.loadPort (some 1234) (some "") = (1234, []) ∧
    ¬ ((ConfigManager.loadPort (some 1234) (some "")).1 = 6379 ∧
        (ConfigManager.loadPort (some 1234) (some "")).2 ≠ []) := by
  constructor
  · rfl
  · intro h
    exact h.2 (by rfl)

/-- C6 as amended: after the config-file merge, if `REDIS_PORT` is set to a
non-empty string that is not a valid integer, a warning is logged, the
override is ignored, and the merged port value — the default `6379`, or the
config file's port when it set one — is retained; if `REDIS_PORT` is set to
the empty string, the override block is skipped entirely (no warning, merged
value retained). -/
theorem claim_C6 (filePort : Option Int) (s : String) :
    (s ≠ "" → ConfigManager.pyIntOfString s = none →
      ConfigManager.loadPort filePort (some s) =
        (filePort.getD 6379, ["Invalid REDIS_PORT value: " ++ s])) ∧
    ConfigManager.loadPort filePort (some "") = (filePort.getD 6379, []) := by
  constructor
  · intro hne hbad
    cases filePort <;> simp [ConfigManager.loadPort, hne, hbad]
  · cases filePort <;> simp [ConfigManager.loadPort]

/-- Witness for C6: no config file, `REDIS_PORT=abc`. -/
theorem claim_C6_witness :
    ConfigManager.loadPort none (some "abc") =
      ((6379 : Int), ["Invalid REDIS_PORT value: " ++ "abc"]) :=
  (claim_C6 none "abc").1 (by decide) (by rfl)

/-! ## Claim C1 (corrected) -/

/-- A write failure at position `n` leaves exactly the first `n` chunks on
disk and reports failure. -/
theorem writeSeq_fail (chunks : List String) (n : Nat)
    (h : n < chunks.length) :
    Project.writeSeq chunks (some n) = (chunks.take n, false) := by
  induction chunks generalizing n with
  | nil => simp at h
  | cons c cs ih =>
    cases n with
    | zero => simp [Project.writeSeq]
    | succ m =>
      have hm : m < cs.length := Nat.lt_of_succ_lt_succ h
      simp [Project.writeSeq, ih m hm]

theorem length_insertSorted (a : String) (l : List String) :
    (Project.insertSorted a l).length = l.length + 1 := by
  induction l with
  | nil => rfl
  | cons b bs ih =>
    simp only [Project.insertSorted]
    split
    · simp
    · simp [List.length_cons, ih]

theorem length_pySorted (l : List String) :
    (Project.pySorted l).length = l.length := by
  induction l with
  | nil => rfl
  | cons a as ih => simp [Project.pySorted, length_insertSorted, ih]

/-- Counterexample to C1 as stated: project members `a.com`, `b.com`, format
`"TEXT"` — which is neither `'text'` nor `'json'` — and a write that fails
after one chunk. The claim demands `return False` with no file written; the
code instead accepts the format (it compares `format_type.lower()`), opens
the file, writes one line, and when the second write raises `IOError` the
handler's lookup of the nonexistent `json.JSONEncodeError` raises
`AttributeError`: the call raises rather than returning `False`, and a
partially written file (`a.com` only) is left behind. -/
theorem claim_C1_counterexample :
    (Project.export_domains ["a.com", "b.com"] "p" "t" "TEXT" (some 1)).1 =
      .error () ∧
    (Project.export_domains ["a.com", "b.com"] "p" "t" "TEXT" (some 1)).2 =
      some ["a.com\n"] ∧
    ¬ ((Project.export_domains ["a.com", "b.com"] "p" "t" "TEXT" (some 1)).1 =
        .ok false ∧
       (Project.export_domains ["a.com", "b.com"] "p" "t" "TEXT" (some 1)).2 =
        none) := by
  refine ⟨rfl, rfl, ?_⟩
  intro h
  have h2 : (some ["a.com\n"] : Option (List String)) = none := h.2
  exact Option.noConfusion h2

/-- C1 as amended: `Project.export_domains` returns `False` and writes no
file whenever the project has zero members, and whenever `format_type` is —
after lowercasing — neither `'text'` nor `'json'`. When the output-file write
raises `IOError`, however, the function does not return `False` and does
remove no file: the exception escapes (as an `AttributeError` from the
handler's reference to the nonexistent `json.JSONEncodeError`) and the
partially written output file is left behind. -/
theorem claim_C1 (domains : List String) (name now format_type : String)
    (failAfter : Option Nat) :
    (domains = [] →
      Project.export_domains domains name now format_type failAfter =
        (.ok false, none)) ∧
    (pyLower format_type ≠ "json" → pyLower format_type ≠ "text" →
      Project.export_domains domains name now format_type failAfter =
        (.ok false, none)) ∧
    (∀ n, failAfter = some n → domains ≠ [] →
      ((pyLower format_type = "json" ∧ n < 1) ∨
        (pyLower format_type = "text" ∧ n < domains.length)) →
      (Project.export_domains domains name now format_type failAfter).1 =
        .error () ∧
      (Project.export_domains domains name now format_type failAfter).2 ≠
        none) := by
  refine ⟨?_, ?_, ?_⟩
  · intro h
    simp [Project.export_domains, h]
  · intro hj ht
    by_cases h : domains = []
    · simp [Project.export_domains, h]
    · simp [Project.export_domains, h, hj, ht]
  · rintro n rfl hne (⟨hfmt, hn⟩ | ⟨hfmt, hn⟩)
    · interval_cases n
      simp [Project.export_domains, hne, hfmt, Project.writeSeq]
    · have hlen : n < ((Project.pySorted domains).map
          (fun d => d ++ "\n")).length := by
        simpa [length_pySorted] using hn
      have hws := writeSeq_fail _ n hlen
      by_cases hj : pyLower format_type = "json"
      · rw [hfmt] at hj
        exact absurd hj (by decide)
      · simp [Project.export_domains, hne, hj, hfmt, hws]

/-- Witness for C1 (amended): an empty member set, and an unrecognized
format. -/
theorem claim_C1_witness :
    Project.export_domains [] "p" "t" "text" none = (.ok false, none) ∧
    Project.export_domains ["a.com"] "p" "t" "xml" none = (.ok false, none) ∧
    (Project.export_domains ["a.com"] "p" "t" "text" (some 0)).1 =
      .error () := by
  refine ⟨(claim_C1 [] "p" "t" "text" none).1 rfl,
    (claim_C1 ["a.com"] "p" "t" "xml" none).2.1 (by decide) (by decide), ?_⟩
  exact ((claim_C1 ["a.com"] "p" "t" "text" (some 0)).2.2 0 rfl
    (by decide) (Or.inr ⟨by decide, by decide⟩)).1


/-! ## Claim C5 -/

theorem ingestLines_cons_blank (st : Store) (name : String) (validate : Bool)
    (l : String) (rest : List String) (hb : pyStrip l = "") :
    Project.ingestLines st name validate (l :: rest) =
      Project.ingestLines st name validate rest := by
  simp [Project.ingestLines, hb]

theorem ingestLines_cons_invalid (st : Store) (name : String)
    (l : String) (rest : List String) (hb : ¬ (pyStrip l = ""))
    (hv : is_valid_domain (pyStrip l) = false) :
    Project.ingestLines st name true (l :: rest) =
      { Project.ingestLines st name true rest with
        invalid_domains :=
          (Project.ingestLines st name true rest).invalid_domains + 1 } := by
  simp [Project.ingestLines, hb, hv]

theorem ingestLines_cons_valid (st : Store) (name : String)
    (l : String) (rest : List String) (hb : ¬ (pyStrip l = ""))
    (hv : is_valid_domain (pyStrip l) = true) :
    Project.ingestLines st name true (l :: rest) =
      { Project.ingestLines
          (DataStore.add_domain st name (pyStrip l)).1 name true rest with
        new_domains :=
          (Project.ingestLines
            (DataStore.add_domain st name (pyStrip l)).1 name true
            rest).new_domains + (DataStore.add_domain st name (pyStrip l)).2
        total_domains :=
          (Project.ingestLines
            (DataStore.add_domain st name (pyStrip l)).1 name true
            rest).total_domains + 1
        submitted := pyStrip l ::
          (Project.ingestLines
            (DataStore.add_domain st name (pyStrip l)).1 name true
            rest).submitted } := by
  simp [Project.ingestLines, hb, hv]

/-- Loop invariant of the ingestion loop under `validate=True`: the invalid
counter counts exactly the non-blank lines whose stripped content fails the
validator; the total counter counts exactly the non-blank lines whose
stripped content passes it; total and invalid together account for exactly
the non-blank lines (blank lines are counted nowhere); every domain
submitted to the store passed the validator; and `new` never exceeds
`total`, each `add_domain` contributing at most `1`. -/
theorem ingestLines_spec (name : String) (lines : List String) :
    ∀ st : Store,
      (Project.ingestLines st name true lines).invalid_domains =
        lines.countP
          (fun l => !(pyStrip l = "") && !(is_valid_domain (pyStrip l))) ∧
      (Project.ingestLines st name true lines).total_domains =
        lines.countP
          (fun l => !(pyStrip l = "") && is_valid_domain (pyStrip l)) ∧
      (Project.ingestLines st name true lines).total_domains +
          (Project.ingestLines st name true lines).invalid_domains =
        lines.countP (fun l => !(pyStrip l = "")) ∧
      (∀ d ∈ (Project.ingestLines st name true lines).submitted,
        is_valid_domain d = true) ∧
      (Project.ingestLines st name true lines).new_domains ≤
        (Project.ingestLines st name true lines).total_domains := by
  induction lines with
  | nil =>
    intro st
    simp [Project.ingestLines]
  | cons l rest ih =>
    intro st
    by_cases hb : pyStrip l = ""
    · rw [ingestLines_cons_blank st name true l rest hb]
      obtain ⟨h1, h2, h3, h4, h5⟩ := ih st
      refine ⟨?_, ?_, ?_, h4, h5⟩
      · simp [List.countP_cons, hb, h1]
      · simp [List.countP_cons, hb, h2]
      · simp [List.countP_cons, hb, h3]
    · by_cases hv : is_valid_domain (pyStrip l) = true
      · rw [ingestLines_cons_valid st name l rest hb hv]
        obtain ⟨h1, h2, h3, h4, h5⟩ :=
          ih (DataStore.add_domain st name (pyStrip l)).1
        have hle : (DataStore.add_domain st name (pyStrip l)).2 ≤ 1 :=
          DataStore.add_domain_snd_le_one st name (pyStrip l)
        refine ⟨?_, ?_, ?_, ?_, ?_⟩
        · simpa [List.countP_cons, hb, hv] using h1
        · simp only [List.countP_cons, hb, hv]
          simp [h2]
        · simp only [List.countP_cons, hb, hv]
          simp
          omega
        · intro d hd
          simp only [List.mem_cons] at hd
          rcases hd with rfl | hd'
          · exact hv
          · exact h4 d hd'
        · simp only []
          omega
      · have hv' : is_valid_domain (pyStrip l) = false :=
          Bool.eq_false_iff.mpr hv
        rw [ingestLines_cons_invalid st name l rest hb hv']
        obtain ⟨h1, h2, h3, h4, h5⟩ := ih st
        refine ⟨?_, ?_, ?_, h4, h5⟩
        · simp [List.countP_cons, hb, hv', h1]
        · simp [List.countP_cons, hb, hv', h2]
        · simp only [List.countP_cons, hb, hv']
          simp
          omega

/-- C5: under `validate=True`, every non-blank line whose stripped content
fails the validator is counted as invalid and never submitted to the store
(every submitted domain passed the validator); blank lines are counted in
neither counter; and the report satisfies `duplicates = total - new` with
`new ≤ total`, and a duplicate percentage of `duplicates / total · 100`
(`0` when the total is `0`, also covered by the equation since `x / 0 = 0`
in `ℚ`). -/
theorem claim_C5 (st : Store) (name : String) (lines : List String) :
    ∃ rep : Project.IngestReport,
      (Project.add_domains_from_file st name (some lines) true).2 =
        some rep ∧
      rep.invalid_domains =
        lines.countP
          (fun l => !(pyStrip l = "") && !(is_valid_domain (pyStrip l))) ∧
      rep.total_domains =
        lines.countP
          (fun l => !(pyStrip l = "") && is_valid_domain (pyStrip l)) ∧
      rep.total_domains + rep.invalid_domains =
        lines.countP (fun l => !(pyStrip l = "")) ∧
      (∀ d ∈ rep.submitted, is_valid_domain d = true) ∧
      rep.new_domains ≤ rep.total_domains ∧
      rep.duplicate_domains = rep.total_domains - rep.new_domains ∧
      rep.duplicate_percentage =
        (rep.duplicate_domains : ℚ) / (rep.total_domains : ℚ) * 100 ∧
      (rep.total_domains = 0 → rep.duplicate_percentage = 0) := by
  obtain ⟨h1, h2, h3, h4, h5⟩ := ingestLines_spec name lines st
  refine ⟨_, rfl, ?_, ?_, ?_, ?_, ?_, ?_, ?_, ?_⟩
  · exact h1
  · exact h2
  · exact h3
  · exact h4
  · exact h5
  · rfl
  · by_cases h0 : 0 < (Project.ingestLines st name true lines).total_domains
    · simp [Project.add_domains_from_file, h0]
    · have ht : (Project.ingestLines st name true lines).total_domains = 0 :=
        Nat.eq_zero_of_not_pos h0
      simp [Project.add_domains_from_file, h0, ht]
  · intro ht
    simp only [Project.add_domains_from_file] at ht ⊢
    simp [ht]

/-- Witness for C5: the spec's own scenario — `example.com` twice and one
invalid line, against an empty store. -/
theorem claim_C5_witness :
    ∃ rep : Project.IngestReport,
      (Project.add_domains_from_file [] "p1"
        (some ["example.com", "example.com", "bad_domain"]) true).2 =
        some rep ∧
      rep.invalid_domains =
        (["example.com", "example.com", "bad_domain"]).countP
          (fun l => !(pyStrip l = "") && !(is_valid_domain (pyStrip l))) ∧
      rep.total_domains =
        (["example.com", "example.com", "bad_domain"]).countP
          (fun l => !(pyStrip l = "") && is_valid_domain (pyStrip l)) ∧
      rep.total_domains + rep.invalid_domains =
        (["example.com", "example.com", "bad_domain"]).countP
          (fun l => !(pyStrip l = "")) ∧
      (∀ d ∈ rep.submitted, is_valid_domain d = true) ∧
      rep.new_domains ≤ rep.total_domains ∧
      rep.duplicate_domains = rep.total_domains - rep.new_domains ∧
      rep.duplicate_percentage =
        (rep.duplicate_domains : ℚ) / (rep.total_domains : ℚ) * 100 ∧
      (rep.total_domains = 0 → rep.duplicate_percentage = 0) :=
  claim_C5 [] "p1" ["example.com", "example.com", "bad_domain"]

/-! ## DomainValidator lemmas -/

theorem splitOnDot_ne_nil (s : List Char) : splitOnDot s ≠ [] := by
  cases s with
  | nil => simp [splitOnDot]
  | cons c cs =>
    by_cases h : c = '.'
    · simp [splitOnDot, h]
    · simp only [splitOnDot, if_neg h]
      cases hs : splitOnDot cs <;> simp

theorem joinDot_splitOnDot (s : List Char) : joinDot (splitOnDot s) = s := by
  induction s with
  | nil => rfl
  | cons c cs ih =>
    by_cases h : c = '.'
    · subst h
      simp only [splitOnDot, if_pos rfl]
      cases hs : splitOnDot cs with
      | nil => exact absurd hs (splitOnDot_ne_nil cs)
      | cons p ps =>
        rw [hs] at ih
        simpa [joinDot] using ih
    · simp only [splitOnDot, if_neg h]
      cases hs : splitOnDot cs with
      | nil => exact absurd hs (splitOnDot_ne_nil cs)
      | cons p ps =>
        rw [hs] at ih
        cases ps with
        | nil => simpa [joinDot] using congrArg (c :: ·) ih
        | cons p' ps' => simpa [joinDot] using congrArg (c :: ·) ih

theorem labelMatches_ne_nil {p : List Char} (h : labelMatches p = true) :
    p ≠ [] := by
  intro hp
  subst hp
  simp [labelMatches] at h

theorem labelMatches_head {p : List Char} (h : labelMatches p = true) :
    ∃ c, p.head? = some c ∧ isAlnumAscii c = true := by
  cases p with
  | nil => simp [labelMatches] at h
  | cons c rest =>
    cases rest with
    | nil => exact ⟨c, rfl, by simpa [labelMatches] using h⟩
    | cons d t =>
      refine ⟨c, rfl, ?_⟩
      simp only [labelMatches, Bool.and_eq_true] at h
      exact h.1.1.1

theorem labelMatches_getLast {p : List Char} (h : labelMatches p = true) :
    ∃ c, p.getLast? = some c ∧ isAlnumAscii c = true := by
  cases p with
  | nil => simp [labelMatches] at h
  | cons c rest =>
    cases rest with
    | nil => exact ⟨c, rfl, by simpa [labelMatches] using h⟩
    | cons d t =>
      simp only [labelMatches, Bool.and_eq_true] at h
      have hlast := h.2
      rcases hg : (d :: t).getLast? with _ | e
      · simp [List.getLast?] at hg
      · rw [hg] at hlast
        refine ⟨e, ?_, hlast⟩
        rw [List.getLast?_cons_cons]
        exact hg

theorem isLabelChar_of_alnum {c : Char} (h : isAlnumAscii c = true) :
    isLabelChar c = true := by
  simp [isLabelChar, h]

theorem ne_of_alnum {c : Char} (h : isAlnumAscii c = true) (d : Char)
    (hd : isAlnumAscii d = false) : c ≠ d := by
  intro he
  subst he
  rw [h] at hd
  cases hd

theorem ne_of_labelChar {c : Char} (h : isLabelChar c = true) (d : Char)
    (hd : isLabelChar d = false) : c ≠ d := by
  intro he
  subst he
  rw [h] at hd
  cases hd

theorem labelMatches_all_labelChar {p : List Char}
    (h : labelMatches p = true) : ∀ c ∈ p, isLabelChar c = true := by
  cases p with
  | nil => simp [labelMatches] at h
  | cons c rest =>
    cases rest with
    | nil =>
      intro x hx
      simp only [List.mem_singleton] at hx
      subst hx
      exact isLabelChar_of_alnum (by simpa [labelMatches] using h)
    | cons d t =>
      simp only [labelMatches, Bool.and_eq_true] at h
      obtain ⟨⟨⟨hc, -⟩, hmid⟩, hlast⟩ := h
      intro x hx
      rcases List.mem_cons.mp hx with rfl | hx'
      · exact isLabelChar_of_alnum hc
      · have hne : (d :: t) ≠ ([] : List Char) := by simp
        have hsplit := List.dropLast_append_getLast hne
        rw [← hsplit] at hx'
        rcases List.mem_append.mp hx' with hx1 | hx2
        · exact List.all_eq_true.mp hmid x hx1
        · simp only [List.mem_singleton] at hx2
          subst hx2
          apply isLabelChar_of_alnum
          have hsome := List.getLast?_eq_getLast (d :: t) hne
          rw [hsome] at hlast
          exact hlast

theorem hasDoubleDot_of_no_dot {p : List Char}
    (h : ∀ c ∈ p, c ≠ '.') : hasDoubleDot p = false := by
  induction p with
  | nil => rfl
  | cons c rest ih =>
    cases rest with
    | nil => rfl
    | cons d t =>
      have hc : c ≠ '.' := h c (List.mem_cons_self c _)
      have ih' := ih (fun x hx => h x (List.mem_cons_of_mem c hx))
      simp [hasDoubleDot, hc, ih']

theorem hasDoubleDot_append {p q : List Char}
    (hp : hasDoubleDot p = false) (hq : hasDoubleDot q = false)
    (hpq : ¬ (p.getLast? = some '.' ∧ q.head? = some '.')) :
    hasDoubleDot (p ++ q) = false := by
  induction p with
  | nil => simpa using hq
  | cons c rest ih =>
    cases rest with
    | nil =>
      cases q with
      | nil => rfl
      | cons d t =>
        have hd : ¬ (c = '.' ∧ d = '.') := by
          intro ⟨h1, h2⟩
          exact hpq ⟨by simp [h1], by simp [h2]⟩
        by_cases hc : c = '.'
        · have hdne : d ≠ '.' := fun h2 => hd ⟨hc, h2⟩
          simp [hasDoubleDot, hc, hdne, hq]
        · simp [hasDoubleDot, hc, hq]
    | cons d t =>
      simp only [hasDoubleDot, Bool.or_eq_false_iff] at hp
      have ih' := ih hp.2 (by
        intro ⟨h1, h2⟩
        exact hpq ⟨by rw [List.getLast?_cons_cons]; exact h1, h2⟩)
      simp only [List.cons_append] at ih' ⊢
      simp [hasDoubleDot, hp.1, ih']

theorem joinDot_ne_nil {parts : List (List Char)} (hne : parts ≠ [])
    (hall : ∀ p ∈ parts, labelMatches p = true) : joinDot parts ≠ [] := by
  cases parts with
  | nil => exact absurd rfl hne
  | cons p ps =>
    have hp := labelMatches_ne_nil (hall p (List.mem_cons_self p ps))
    cases ps with
    | nil => simpa [joinDot] using hp
    | cons q qs => simp [joinDot]

theorem joinDot_head {p : List Char} (ps : List (List Char)) (hp : p ≠ []) :
    (joinDot (p :: ps)).head? = p.head? := by
  cases ps with
  | nil => rfl
  | cons q qs =>
    cases p with
    | nil => exact absurd rfl hp
    | cons c cs => rfl

theorem joinDot_mem {parts : List (List Char)} {c : Char}
    (hc : c ∈ joinDot parts) : (∃ p ∈ parts, c ∈ p) ∨ c = '.' := by
  induction parts with
  | nil => simp [joinDot] at hc
  | cons p ps ih =>
    cases ps with
    | nil =>
      exact Or.inl ⟨p, List.mem_cons_self p [], by simpa [joinDot] using hc⟩
    | cons q qs =>
      simp only [joinDot, List.mem_append, List.mem_cons] at hc
      rcases hc with h1 | h2 | h3
      · exact Or.inl ⟨p, List.mem_cons_self p _, h1⟩
      · exact Or.inr h2
      · rcases ih h3 with ⟨r, hr, hcr⟩ | hdot
        · exact Or.inl ⟨r, List.mem_cons_of_mem p hr, hcr⟩
        · exact Or.inr hdot

theorem joinDot_getLast {parts : List (List Char)} (hne : parts ≠ [])
    (hall : ∀ p ∈ parts, labelMatches p = true) :
    ∃ c, (joinDot parts).getLast? = some c ∧ isAlnumAscii c = true := by
  induction parts with
  | nil => exact absurd rfl hne
  | cons p ps ih =>
    cases ps with
    | nil =>
      simpa [joinDot] using labelMatches_getLast (hall p (by simp))
    | cons q qs =>
      have hall' : ∀ r ∈ q :: qs, labelMatches r = true :=
        fun r hr => hall r (List.mem_cons_of_mem p hr)
      obtain ⟨c, hc1, hc2⟩ := ih (by simp) hall'
      refine ⟨c, ?_, hc2⟩
      have hjne : joinDot (q :: qs) ≠ [] := joinDot_ne_nil (by simp) hall'
      show (p ++ '.' :: joinDot (q :: qs)).getLast? = some c
      rw [List.getLast?_append_of_ne_nil p (by simp)]
      rw [show ('.' :: joinDot (q :: qs)).getLast? =
        (joinDot (q :: qs)).getLast? from
        List.getLast?_append_of_ne_nil ['.'] hjne]
      exact hc1

theorem hasDoubleDot_joinDot {parts : List (List Char)}
    (hall : ∀ p ∈ parts, labelMatches p = true) :
    hasDoubleDot (joinDot parts) = false := by
  induction parts with
  | nil => rfl
  | cons p ps ih =>
    have hpdot : ∀ c ∈ p, c ≠ '.' := fun c hc =>
      ne_of_labelChar
        (labelMatches_all_labelChar (hall p (List.mem_cons_self p ps)) c hc)
        '.' (by decide)
    cases ps with
    | nil =>
      show hasDoubleDot p = false
      exact hasDoubleDot_of_no_dot hpdot
    | cons q qs =>
      have hall' : ∀ r ∈ q :: qs, labelMatches r = true :=
        fun r hr => hall r (List.mem_cons_of_mem p hr)
      have ih' := ih hall'
      have hqhead := labelMatches_head (hall' q (List.mem_cons_self q qs))
      obtain ⟨hcq, hq1, hq2⟩ := hqhead
      have hheadjoin : (joinDot (q :: qs)).head? = some hcq := by
        rw [joinDot_head qs (labelMatches_ne_nil (hall' q (by simp)))]
        exact hq1
      show hasDoubleDot (p ++ '.' :: joinDot (q :: qs)) = false
      apply hasDoubleDot_append
      · exact hasDoubleDot_of_no_dot hpdot
      · show hasDoubleDot ('.' :: joinDot (q :: qs)) = false
        rcases hj : joinDot (q :: qs) with _ | ⟨d, t⟩
        · rfl
        · rw [hj] at hheadjoin
          simp only [List.head?_cons, Option.some.injEq] at hheadjoin
          subst hheadjoin
          have hdne : d ≠ '.' := ne_of_alnum hq2 '.' (by decide)
          rw [hj] at ih'
          simp [hasDoubleDot, hdne, ih']
      · intro ⟨h1, h2⟩
        obtain ⟨e, he1, he2⟩ :=
          labelMatches_getLast (hall p (List.mem_cons_self p _))
        rw [he1] at h1
        exact absurd (Option.some.inj h1) (ne_of_alnum he2 '.' (by decide))

theorem head?_append_left {l1 l2 : List Char} (h : l1 ≠ []) :
    (l1 ++ l2).head? = l1.head? := by
  cases l1 with
  | nil => exact absurd rfl h
  | cons c cs => rfl

/-- Appending one non-dot character extends the last segment of the dot
split and leaves the others alone. -/
theorem splitOnDot_concat_nondot (xs : List Char) (c : Char) (hc : c ≠ '.') :
    ∃ ps q, splitOnDot xs = ps ++ [q] ∧
      splitOnDot (xs ++ [c]) = ps ++ [q ++ [c]] := by
  induction xs with
  | nil => exact ⟨[], [], rfl, by simp [splitOnDot, hc]⟩
  | cons x rest ih =>
    obtain ⟨ps, q, h1, h2⟩ := ih
    by_cases hx : x = '.'
    · subst hx
      refine ⟨[] :: ps, q, ?_, ?_⟩
      · simp [splitOnDot, h1]
      · simp [splitOnDot, h2]
    · cases ps with
      | nil =>
        refine ⟨[], x :: q, ?_, ?_⟩
        · simp [splitOnDot, hx, h1]
        · simp [splitOnDot, hx, h2]
      | cons p' ps' =>
        refine ⟨(x :: p') :: ps', q, ?_, ?_⟩
        · simp [splitOnDot, hx, h1]
        · simp [splitOnDot, hx, h2]

/-- Everything `domainPatternCore` guarantees about an accepted character
list: nonempty, every character a label character or a dot, alphanumeric
first and last characters, and no two consecutive dots. -/
theorem domainPatternCore_props {s : List Char}
    (h : domainPatternCore s = true) :
    s ≠ [] ∧
    (∀ c ∈ s, isLabelChar c = true ∨ c = '.') ∧
    (∃ c, s.head? = some c ∧ isAlnumAscii c = true) ∧
    (∃ c, s.getLast? = some c ∧ isAlnumAscii c = true) ∧
    hasDoubleDot s = false := by
  simp only [domainPatternCore, Bool.and_eq_true, decide_eq_true_eq,
    List.all_eq_true] at h
  obtain ⟨hlen, hall⟩ := h
  have hne : splitOnDot s ≠ [] := splitOnDot_ne_nil s
  have hjoin : joinDot (splitOnDot s) = s := joinDot_splitOnDot s
  refine ⟨?_, ?_, ?_, ?_, ?_⟩
  · rw [← hjoin]
    exact joinDot_ne_nil hne hall
  · intro c hc
    rw [← hjoin] at hc
    rcases joinDot_mem hc with ⟨p, hp, hcp⟩ | rfl
    · exact Or.inl (labelMatches_all_labelChar (hall p hp) c hcp)
    · exact Or.inr rfl
  · rcases hsp : splitOnDot s with _ | ⟨p, ps⟩
    · exact absurd hsp hne
    · have hpmem : p ∈ splitOnDot s := by
        rw [hsp]; exact List.mem_cons_self p ps
      obtain ⟨c, hc1, hc2⟩ := labelMatches_head (hall p hpmem)
      refine ⟨c, ?_, hc2⟩
      rw [← hjoin, hsp,
        joinDot_head ps (labelMatches_ne_nil (hall p hpmem))]
      exact hc1
  · rw [← hjoin]
    exact joinDot_getLast hne hall
  · rw [← hjoin]
    exact hasDoubleDot_joinDot hall

/-! ## Claim C2 -/

/-- C2: every string accepted by `DomainValidator.is_valid_domain` contains
no underscore, no dot-separated label with a leading or trailing hyphen, no
leading dot, no trailing dot, no two consecutive dots, and is at most 253
characters long; in particular the empty string and any longer string are
rejected. -/
theorem claim_C2 (s : String) :
    (is_valid_domain s = true → specAcceptedProps s = true) ∧
    (s = "" → is_valid_domain s = false) ∧
    (253 < s.data.length → is_valid_domain s = false) := by
  refine ⟨?_, ?_, ?_⟩
  · intro h
    by_cases hg : (s.data.isEmpty || decide (253 < s.data.length)) = true
    · rw [is_valid_domain, if_pos hg] at h
      cases h
    · rw [is_valid_domain, if_neg hg] at h
      have hg' := hg
      simp only [Bool.or_eq_true, decide_eq_true_eq, List.isEmpty_iff,
        not_or] at hg'
      have hlen : s.data.length ≤ 253 := Nat.le_of_not_lt hg'.2
      simp only [domainPatternMatch, Bool.or_eq_true, Bool.and_eq_true] at h
      rcases h with hcore | ⟨hnl, hcore'⟩
      · obtain ⟨hne, hchars, ⟨ch, hh1, hh2⟩, ⟨cl, hl1, hl2⟩, hdd⟩ :=
          domainPatternCore_props hcore
        have hall : ∀ p ∈ splitOnDot s.data, labelMatches p = true := by
          simp only [domainPatternCore, Bool.and_eq_true,
            List.all_eq_true] at hcore
          exact hcore.2
        have fact1 : ∀ c ∈ s.data, ¬ (c = '_') := by
          intro c hc
          rcases hchars c hc with hl | rfl
          · exact ne_of_labelChar hl '_' (by decide)
          · decide
        have fact2 : ¬ (s.data.head? = some '.') := by
          rw [hh1]
          intro he
          exact absurd (Option.some.inj he) (ne_of_alnum hh2 '.' (by decide))
        have fact3 : ¬ (s.data.getLast? = some '.') := by
          rw [hl1]
          intro he
          exact absurd (Option.some.inj he) (ne_of_alnum hl2 '.' (by decide))
        have fact5 : ∀ q ∈ splitOnDot s.data,
            ¬ (q.head? = some '-') ∧ ¬ (q.getLast? = some '-') := by
          intro q hq
          obtain ⟨c1, hq1, hq2⟩ := labelMatches_head (hall q hq)
          obtain ⟨c2, hq3, hq4⟩ := labelMatches_getLast (hall q hq)
          constructor
          · rw [hq1]
            intro he
            exact absurd (Option.some.inj he)
              (ne_of_alnum hq2 '-' (by decide))
          · rw [hq3]
            intro he
            exact absurd (Option.some.inj he)
              (ne_of_alnum hq4 '-' (by decide))
        simp only [specAcceptedProps, Bool.and_eq_true, List.all_eq_true,
          Bool.not_eq_true', decide_eq_false_iff_not, decide_eq_true_eq]
        exact ⟨⟨⟨⟨⟨fact1, fact2⟩, fact3⟩, hdd⟩,
          fun q hq => by
            obtain ⟨f1, f2⟩ := fact5 q hq
            simp [f1, f2]⟩, hlen⟩
      · rcases hg2 : s.data.getLast? with _ | c0
        · rw [hg2] at hnl
          cases hnl
        · rw [hg2] at hnl
          simp only [decide_eq_true_eq] at hnl
          subst hnl
          have hsne : s.data ≠ [] := hg'.1
          have hsplit : s.data.dropLast ++ ['\n'] = s.data := by
            have h1 := List.dropLast_append_getLast hsne
            have h2 : s.data.getLast hsne = '\n' := by
              have h3 := List.getLast?_eq_getLast s.data hsne
              rw [hg2] at h3
              exact (Option.some.inj h3).symm
            rw [h2] at h1
            exact h1
          obtain ⟨hne', hchars', ⟨ch, hh1, hh2⟩, -, hdd'⟩ :=
            domainPatternCore_props hcore'
          have hall' : ∀ p ∈ splitOnDot s.data.dropLast,
              labelMatches p = true := by
            simp only [domainPatternCore, Bool.and_eq_true,
              List.all_eq_true] at hcore'
            exact hcore'.2
          have fact1 : ∀ c ∈ s.data, ¬ (c = '_') := by
            intro c hc
            rw [← hsplit] at hc
            rcases List.mem_append.mp hc with hc1 | hc2
            · rcases hchars' c hc1 with hl | rfl
              · exact ne_of_labelChar hl '_' (by decide)
              · decide
            · simp only [List.mem_singleton] at hc2
              subst hc2
              decide
          have fact2 : ¬ (s.data.head? = some '.') := by
            rw [← hsplit, head?_append_left hne', hh1]
            intro he
            exact absurd (Option.some.inj he)
              (ne_of_alnum hh2 '.' (by decide))
          have fact3 : ¬ (s.data.getLast? = some '.') := by
            rw [hg2]
            intro he
            exact absurd (Option.some.inj he) (by decide)
          have fact4 : hasDoubleDot s.data = false := by
            rw [← hsplit]
            apply hasDoubleDot_append hdd' (by rfl)
            rintro ⟨-, hcontr⟩
            simp only [List.head?_cons, Option.some.injEq] at hcontr
            exact absurd hcontr (by decide)
          have fact5 : ∀ q ∈ splitOnDot s.data,
              ¬ (q.head? = some '-') ∧ ¬ (q.getLast? = some '-') := by
            obtain ⟨ps, q0, hsp1, hsp2⟩ :=
              splitOnDot_concat_nondot s.data.dropLast '\n' (by decide)
            rw [← hsplit, hsp2]
            intro r hr
            rcases List.mem_append.mp hr with hr1 | hr2
            · have hrmem : r ∈ splitOnDot s.data.dropLast := by
                rw [hsp1]
                exact List.mem_append_left _ hr1
              obtain ⟨c1, hq1, hq2⟩ := labelMatches_head (hall' r hrmem)
              obtain ⟨c2, hq3, hq4⟩ := labelMatches_getLast (hall' r hrmem)
              constructor
              · rw [hq1]
                intro he
                exact absurd (Option.some.inj he)
                  (ne_of_alnum hq2 '-' (by decide))
              · rw [hq3]
                intro he
                exact absurd (Option.some.inj he)
                  (ne_of_alnum hq4 '-' (by decide))
            · simp only [List.mem_singleton] at hr2
              subst hr2
              have hq0mem : q0 ∈ splitOnDot s.data.dropLast := by
                rw [hsp1]
                exact List.mem_append_right _ (List.mem_singleton_self q0)
              have hq0ne : q0 ≠ [] := labelMatches_ne_nil (hall' q0 hq0mem)
              obtain ⟨c1, hq1, hq2⟩ := labelMatches_head (hall' q0 hq0mem)
              constructor
              · rw [head?_append_left hq0ne, hq1]
                intro he
                exact absurd (Option.some.inj he)
                  (ne_of_alnum hq2 '-' (by decide))
              · rw [List.getLast?_append_of_ne_nil q0 (by simp)]
                intro he
                exact absurd (Option.some.inj he) (by decide)
          simp only [specAcceptedProps, Bool.and_eq_true, List.all_eq_true,
            Bool.not_eq_true', decide_eq_false_iff_not, decide_eq_true_eq]
          exact ⟨⟨⟨⟨⟨fact1, fact2⟩, fact3⟩, fact4⟩,
            fun q hq => by
              obtain ⟨f1, f2⟩ := fact5 q hq
              simp [f1, f2]⟩, hlen⟩
  · intro h
    subst h
    rfl
  · intro h
    have : (s.data.isEmpty || decide (253 < s.data.length)) = true := by
      simp only [Bool.or_eq_true, decide_eq_true_eq]
      exact Or.inr h
    rw [is_valid_domain, if_pos this]

/-- Witness for C2: the accepted string `example.com` satisfies all the
asserted properties, and the empty string is rejected. -/
theorem claim_C2_witness :
    specAcceptedProps "example.com" = true ∧
    is_valid_domain "" = false := by
  constructor
  · exact (claim_C2 "example.com").1 (by decide)
  · exact (claim_C2 "").2.1 rfl

/-! ## Claim C3 -/

/-- The spec's label grammar implies the label sub-pattern of
`DOMAIN_PATTERN`. -/
theorem labelMatches_of_specLabel {p : List Char} (h : specLabel p = true) :
    labelMatches p = true := by
  cases p with
  | nil => simp [specLabel] at h
  | cons c rest =>
    simp only [specLabel, Bool.and_eq_true, decide_eq_true_eq,
      List.all_eq_true, List.head?_cons] at h
    obtain ⟨⟨⟨⟨h1, h2⟩, h3⟩, h4⟩, h5⟩ := h
    cases rest with
    | nil => simpa [labelMatches] using h4
    | cons d t =>
      simp only [labelMatches, Bool.and_eq_true]
      refine ⟨⟨⟨h4, ?_⟩, ?_⟩, ?_⟩
      · simp only [decide_eq_true_eq, List.length_cons]
        simp only [List.length_cons] at h2
        omega
      · rw [List.all_eq_true]
        intro x hx
        exact h3 x (List.mem_cons_of_mem c (List.dropLast_subset _ hx))
      · rw [List.getLast?_cons_cons] at h5
        exact h5

/-- C3: `is_valid_domain` accepts every string of length at most 253 whose
dot split consists of two or more labels, each 1–63
alphanumeric-or-hyphen characters beginning and ending with an
alphanumeric character. -/
theorem claim_C3 (s : String) (hlen : s.data.length ≤ 253)
    (hparts : 2 ≤ (splitOnDot s.data).length)
    (hlab : ∀ p ∈ splitOnDot s.data, specLabel p = true) :
    is_valid_domain s = true := by
  have hne : s.data ≠ [] := by
    intro h0
    rw [h0] at hparts
    simp [splitOnDot] at hparts
  have hcore : domainPatternCore s.data = true := by
    simp only [domainPatternCore, Bool.and_eq_true, decide_eq_true_eq,
      List.all_eq_true]
    exact ⟨hparts, fun p hp => labelMatches_of_specLabel (hlab p hp)⟩
  have hguard : ¬ ((s.data.isEmpty || decide (253 < s.data.length)) = true) := by
    simp only [Bool.or_eq_true, decide_eq_true_eq, List.isEmpty_iff, not_or]
    exact ⟨hne, Nat.not_lt.mpr hlen⟩
  rw [is_valid_domain, if_neg hguard]
  simp [domainPatternMatch, hcore]

/-- Witness for C3: the country-code second-level domain
`test-domain.co.uk` (three labels, one with digits-free hyphen use) is
accepted. -/
theorem claim_C3_witness : is_valid_domain "test-domain.co.uk" = true :=
  claim_C3 "test-domain.co.uk" (by decide) (by decide) (by decide)

/-! ## Equivalence of the executable matcher and the pattern language -/

theorem splitOnDot_no_dot {q : List Char} (h : ∀ c ∈ q, c ≠ '.') :
    splitOnDot q = [q] := by
  induction q with
  | nil => rfl
  | cons c rest ih =>
    have hc : c ≠ '.' := h c (List.mem_cons_self c rest)
    have ih' := ih (fun x hx => h x (List.mem_cons_of_mem c hx))
    simp [splitOnDot, hc, ih']

theorem splitOnDot_label_dot {l : List Char} (rest : List Char)
    (h : ∀ c ∈ l, c ≠ '.') :
    splitOnDot (l ++ '.' :: rest) = l :: splitOnDot rest := by
  induction l with
  | nil => simp [splitOnDot]
  | cons c l' ih =>
    have hc : c ≠ '.' := h c (List.mem_cons_self c l')
    have ih' := ih (fun x hx => h x (List.mem_cons_of_mem c hx))
    simp [splitOnDot, hc, ih']

theorem no_dot_of_labelMatches {l : List Char} (h : labelMatches l = true) :
    ∀ c ∈ l, c ≠ '.' := fun c hc =>
  ne_of_labelChar (labelMatches_all_labelChar h c hc) '.' (by decide)

theorem lang_of_parts : ∀ (parts : List (List Char)), 2 ≤ parts.length →
    (∀ p ∈ parts, labelMatches p = true) →
    DomainPatternLang (joinDot parts) := by
  intro parts
  induction parts with
  | nil => intro h; simp at h
  | cons p ps ih =>
    intro hlen hall
    cases ps with
    | nil => simp at hlen
    | cons q qs =>
      have hp : labelMatches p = true := hall p (List.mem_cons_self p _)
      cases qs with
      | nil =>
        refine ⟨p ++ ['.'], q, ?_, .one p hp, hall q (by simp)⟩
        simp [joinDot]
      | cons r rs =>
        obtain ⟨p', q'', hsplit, hplus, hq⟩ :=
          ih (by simp) (fun x hx => hall x (List.mem_cons_of_mem p hx))
        refine ⟨p ++ '.' :: p', q'', ?_, .more p p' hp hplus, hq⟩
        show p ++ '.' :: joinDot (q :: r :: rs) = p ++ '.' :: p' ++ q''
        rw [hsplit]
        simp

theorem domainPatternCore_iff_lang (s : List Char) :
    domainPatternCore s = true ↔ DomainPatternLang s := by
  constructor
  · intro h
    simp only [domainPatternCore, Bool.and_eq_true, decide_eq_true_eq,
      List.all_eq_true] at h
    have := lang_of_parts (splitOnDot s) h.1 h.2
    rwa [joinDot_splitOnDot s] at this
  · rintro ⟨p, q, rfl, hplus, hq⟩
    have key : ∀ p', PlusLabelDot p' →
        2 ≤ (splitOnDot (p' ++ q)).length ∧
        ∀ r ∈ splitOnDot (p' ++ q), labelMatches r = true := by
      intro p' hp'
      induction hp' with
      | one l hl =>
        have hsp : splitOnDot ((l ++ ['.']) ++ q) = l :: splitOnDot q := by
          rw [show (l ++ ['.']) ++ q = l ++ '.' :: q by simp]
          exact splitOnDot_label_dot q (no_dot_of_labelMatches hl)
        rw [hsp, splitOnDot_no_dot (no_dot_of_labelMatches hq)]
        refine ⟨by simp, ?_⟩
        intro r hr
        rcases List.mem_cons.mp hr with rfl | hr'
        · exact hl
        · simp only [List.mem_singleton] at hr'
          subst hr'
          exact hq
      | more l s' hl hs' ih =>
        obtain ⟨ih2, ih3⟩ := ih
        have hsp : splitOnDot ((l ++ '.' :: s') ++ q) =
            l :: splitOnDot (s' ++ q) := by
          rw [show (l ++ '.' :: s') ++ q = l ++ '.' :: (s' ++ q) by simp]
          exact splitOnDot_label_dot (s' ++ q) (no_dot_of_labelMatches hl)
        rw [hsp]
        refine ⟨by simp only [List.length_cons]; omega, ?_⟩
        intro r hr
        rcases List.mem_cons.mp hr with rfl | hr'
        · exact hl
        · exact ih3 r hr'
    obtain ⟨h2, h3⟩ := key p hplus
    simp only [domainPatternCore, Bool.and_eq_true, decide_eq_true_eq,
      List.all_eq_true]
    exact ⟨h2, h3⟩
